import Mathlib

/-!
# Verification of the R-Memory compression engine (`src/extensions/r-memory.js`)

A shallow embedding of the conversation-memory compression engine:
message normalization (`extractMessageText`), block segmentation
(`groupMessagesIntoBlocks` / `groupEntriesIntoBlocks`), the content-addressable
cache, the compression adapter (`compressSingleBlock`), the compaction swap
controller (`handleBeforeCompact`), and FIFO eviction with archiving
(`applyFifoEviction` / `archiveEvictedBlock`).

Modelling conventions:
* JS strings are modelled as `List Char` (`Str`); `a.slice(x, y)` becomes
  `take`/`drop`, `Array.join(sep)` becomes `joinSep`.
* The SHA-256 based content hashes (`hashText`, the 8-hex-digit archive hash)
  are pure functions of their input text; they are passed in as parameters
  `hashText hash8 : Str → Str`, so every theorem holds for the actual hash.
* JS float comparisons against the exact constants 0.95, 0.7 and 0.6 are
  rendered with exact integer arithmetic (`19/20`, `7/10`, `ceil(3*t/5)`).
* The external completion service is a parameter `service : Str → Option Str`:
  `none` models a thrown error or an error stop-reason, `some c` models a
  successful response whose text parts join to `c`.
* The host cancellation signal is a predicate `signal : Nat → Bool` sampled at
  the successive `signal?.aborted` checks of the handler (check 0 before the
  swap loop, one check before each on-demand compression batch, and one final
  check before assembling the result).
* Durable storage (history file, cache file, archive directories) is held in
  explicit state fields; `saveCompactionHistory`/`saveMessageCache` copy the
  in-memory value into the durable field.  Log lines, usage statistics and
  the training-data capture files are not modelled.
-/

set_option maxRecDepth 10000

abbrev Str : Type := List Char

/-- `estimateTokens(text) = Math.ceil(text.length / 4)`. -/
def estimateTokens (text : Str) : Nat := (text.length + 3) / 4

/-- `s.slice(-k)` for a JS string: the last `k` characters. -/
def takeLast (s : Str) (k : Nat) : Str := s.drop (s.length - k)

/-- `parts.join(sep)` for a JS array of strings. -/
def joinSep (sep : Str) : List Str → Str
  | [] => []
  | [t] => t
  | t :: u :: rest => t ++ sep ++ joinSep sep (u :: rest)

/-- One element of a structured `msg.content` array.  Tool-call arguments are
modelled as their already-serialized JSON text (`JSON.stringify(b.arguments)`
in the source). -/
inductive ContentBlock where
  | text (t : Str)
  | image
  | thinking (t : Str)
  | toolCall (name : Str) (args : Str)
deriving DecidableEq

/-- `msg.content`: either a plain string, a structured array, or absent. -/
inductive Content where
  | str (s : Str)
  | arr (bs : List ContentBlock)
  | none
deriving DecidableEq

/-- One conversation message, split by `msg.role`. -/
inductive Msg where
  | user (content : Content)
  | assistant (content : Content)
  | toolResult (content : Content)
  | bashExecution (command : Str) (output : Str)
  | compactionSummary (summary : Str)
  | branchSummary (summary : Str)
  | custom (content : Content)
  | other (role : Str) (content : Content)
deriving DecidableEq

def Msg.isUserRole : Msg → Bool
  | .user _ => true
  | _ => false

def Msg.isSummaryRole : Msg → Bool
  | .compactionSummary _ => true
  | .branchSummary _ => true
  | _ => false

/-- The 8000-character head+tail truncation applied to tool-result and shell
output bodies: `c.slice(0,4000) + "\n...[truncated]...\n" + c.slice(-2000)`. -/
def truncateLong (c : Str) : Str :=
  if 8000 < c.length then
    c.take 4000 ++ "\n...[truncated]...\n".data ++ takeLast c 2000
  else c

def userParts : List ContentBlock → List Str
  | [] => []
  | .text t :: rest => (if t.isEmpty then [] else [t]) ++ userParts rest
  | .image :: rest => "[Image: ~1200 tokens]".data :: userParts rest
  | _ :: rest => userParts rest

def assistantParts : List ContentBlock → List Str
  | [] => []
  | .text t :: rest => t :: assistantParts rest
  | .thinking t :: rest =>
      (if 2000 < t.length then
        "[Thinking]: ".data ++ t.take 500 ++ "\n...[truncated]...\n".data ++ takeLast t 500
      else "[Thinking]: ".data ++ t) :: assistantParts rest
  | .toolCall name args :: rest =>
      ("[Tool: ".data ++ name ++ "]".data) ::
      ("<PRESERVE_VERBATIM>\n".data ++ args ++ "\n</PRESERVE_VERBATIM>".data) ::
      assistantParts rest
  | .image :: rest => assistantParts rest

def toolResultParts : List ContentBlock → List Str
  | [] => []
  | .text t :: rest => (if t.isEmpty then [] else [truncateLong t]) ++ toolResultParts rest
  | .image :: rest => "[Image: ~1200 tokens]".data :: toolResultParts rest
  | _ :: rest => toolResultParts rest

/-- `extractMessageText(msg)`: canonical text rendering of one message. -/
def extractMessageText (msg : Msg) : Str :=
  joinSep "\n".data (
    match msg with
    | .user c =>
        "[Human]:".data :: (match c with
          | .str s => [s]
          | .arr bs => userParts bs
          | .none => [])
    | .assistant c =>
        "[AI]:".data :: (match c with
          | .arr bs => assistantParts bs
          | _ => [])
    | .toolResult c =>
        "[Tool Result]:".data :: (match c with
          | .str s => [truncateLong s]
          | .arr bs => toolResultParts bs
          | .none => [])
    | .bashExecution command output =>
        ["[Bash]:".data, "$ ".data ++ command, truncateLong output]
    | .compactionSummary summary => ["[Previous Compressed]:".data, summary]
    | .branchSummary summary => ["[Branch Context]:".data, summary]
    | .custom c =>
        "[Custom]:".data :: (match c with | .str s => [s] | _ => [])
    | .other role c =>
        ("[".data ++ (if role.isEmpty then "unknown".data else role) ++ "]:".data) ::
        (match c with | .str s => [s] | _ => []))

/-- Runtime configuration (`DEFAULT_CONFIG` / `config.json`). -/
structure Config where
  enabled : Bool
  compressTrigger : Nat
  evictTrigger : Nat
  blockSize : Nat
  minCompressChars : Nat
  minSwapTokens : Nat
  maxParallelCompressions : Nat
deriving DecidableEq

def DEFAULT_CONFIG : Config :=
  { enabled := true, compressTrigger := 36000, evictTrigger := 80000,
    blockSize := 4000, minCompressChars := 200, minSwapTokens := 50,
    maxParallelCompressions := 4 }

/-- `config.blockSize || 4000` (`0` is falsy in JS). -/
def maxTokensOf (cfg : Config) : Nat := if cfg.blockSize = 0 then 4000 else cfg.blockSize

/-- `config.minSwapTokens || 50`. -/
def minSwapTokensOf (cfg : Config) : Nat :=
  if cfg.minSwapTokens = 0 then 50 else cfg.minSwapTokens

example : estimateTokens "abcde".data = 2 := by decide
example : joinSep "\n".data ["ab".data, "cd".data] = "ab\ncd".data := by decide
example : extractMessageText (.user (.str "hi".data)) = "[Human]:\nhi".data := by decide

/-! ## Block creation helpers -/

/-- A block built from flat messages (`finalizeBlock` / the hard-split path of
`groupMessagesIntoBlocks`).  The hard-split path stores the source message in
`messages`; the `_chunkText` debug field added there is write-only in the
source and is not modelled. -/
structure Block where
  messages : List Msg
  text : Str
  hash : Str
  tokens : Nat
deriving DecidableEq

/-- `finalizeBlock(messages)`. -/
def finalizeBlock (hashText : Str → Str) (messages : List Msg) : Block :=
  let text := joinSep "\n\n".data (messages.map extractMessageText)
  { messages := messages, text := text, hash := hashText text,
    tokens := estimateTokens text }

/-- One record of the indexed segmentation path: `{index: i, id: entry.id,
message: msg}`. -/
structure EntryRec where
  index : Nat
  id : Option Str
  message : Msg
deriving DecidableEq

/-- A block built from transcript entries (`finalizeEntryBlock` / the
hard-split path of `groupEntriesIntoBlocks`). -/
structure EBlock where
  entries : List EntryRec
  firstEntryId : Option Str
  firstEntryIndex : Nat
  text : Str
  hash : Str
  tokens : Nat
deriving DecidableEq

/-- `finalizeEntryBlock(entries)` (`entries[0]` is only read on the non-empty
lists the callers construct; the empty case defaults). -/
def finalizeEntryBlock (hashText : Str → Str) (entries : List EntryRec) : EBlock :=
  let text := joinSep "\n\n".data (entries.map (fun e => extractMessageText e.message))
  { entries := entries,
    firstEntryId := (entries.head?.map (fun e => e.id)).getD none,
    firstEntryIndex := (entries.head?.map (fun e => e.index)).getD 0,
    text := text, hash := hashText text, tokens := estimateTokens text }

/-- `remaining.lastIndexOf("\n", bound)`: the largest index `i ≤ bound` with
`remaining[i] = '\n'`, if any. -/
def lastNewlineLE (s : Str) (bound : Nat) : Option Nat :=
  (List.range s.length).foldl (fun acc i =>
    if i ≤ bound && s.get? i == some '\n' then some i else acc) none

/-- Loop body of `hardSplitText`.  The source's `while` loop strictly shrinks
`remaining` on every iteration when `maxChars ≥ 1`, so fuel `text.length`
never runs out on the inputs the source can reach; the JS float test
`newlinePos > maxChars * 0.7` is rendered exactly as `7 * maxChars < 10 * p`. -/
def hardSplitGo (maxChars : Nat) : Nat → Str → List Str
  | 0, remaining => if remaining.isEmpty then [] else [remaining]
  | fuel + 1, remaining =>
    if maxChars < remaining.length then
      let cut :=
        match lastNewlineLE remaining maxChars with
        | some p => if 7 * maxChars < 10 * p then p + 1 else maxChars
        | none => maxChars
      remaining.take cut :: hardSplitGo maxChars fuel (remaining.drop cut)
    else if remaining.isEmpty then [] else [remaining]

/-- `hardSplitText(text, maxChars)`: split one long text into chunks of at
most `maxChars` characters, preferring a newline near the boundary. -/
def hardSplitText (text : Str) (maxChars : Nat) : List Str :=
  hardSplitGo maxChars text.length text

/-! ## Block grouping from flat messages (`groupMessagesIntoBlocks`) -/

/-- Step 1 of `groupMessagesIntoBlocks`: partition messages into turns,
skipping `compactionSummary`/`branchSummary` messages.  `acc` is the
`currentMsgs` accumulator. -/
def groupTurnsF (acc : List Msg) : List Msg → List (List Msg)
  | [] => if acc.isEmpty then [] else [acc]
  | m :: rest =>
    if m.isSummaryRole then groupTurnsF acc rest
    else if m.isUserRole && !acc.isEmpty then acc :: groupTurnsF [m] rest
    else groupTurnsF (acc ++ [m]) rest

/-- Steps 2–3 of `groupMessagesIntoBlocks` for one oversized turn: split at
message boundaries, hard-splitting single oversized messages. -/
def splitTurnF (hashText : Str → Str) (maxTokens maxChars : Nat)
    (blockMsgs : List Msg) (blockTokens : Nat) : List Msg → List Block
  | [] => if blockMsgs.isEmpty then [] else [finalizeBlock hashText blockMsgs]
  | m :: rest =>
    let msgText := extractMessageText m
    let msgTokens := estimateTokens msgText
    if maxTokens < msgTokens then
      (if blockMsgs.isEmpty then [] else [finalizeBlock hashText blockMsgs]) ++
      (hardSplitText msgText maxChars).map (fun chunk =>
        { messages := [m], text := chunk, hash := hashText chunk,
          tokens := estimateTokens chunk }) ++
      splitTurnF hashText maxTokens maxChars [] 0 rest
    else if maxTokens < blockTokens + msgTokens && !blockMsgs.isEmpty then
      finalizeBlock hashText blockMsgs :: splitTurnF hashText maxTokens maxChars [m] msgTokens rest
    else splitTurnF hashText maxTokens maxChars (blockMsgs ++ [m]) (blockTokens + msgTokens) rest

/-- Blocks of one turn: a single block if the whole turn fits in `maxTokens`,
otherwise the message-boundary split. -/
def blockifyTurnF (hashText : Str → Str) (maxTokens maxChars : Nat)
    (turnMsgs : List Msg) : List Block :=
  let turnText := joinSep "\n\n".data (turnMsgs.map extractMessageText)
  if estimateTokens turnText ≤ maxTokens then [finalizeBlock hashText turnMsgs]
  else splitTurnF hashText maxTokens maxChars [] 0 turnMsgs

/-- `groupMessagesIntoBlocks(messages)`: the flat-list segmentation entry
point used by the background pipeline. -/
def groupMessagesIntoBlocks (hashText : Str → Str) (cfg : Config)
    (messages : List Msg) : List Block :=
  let maxTokens := maxTokensOf cfg
  (groupTurnsF [] messages).flatMap (blockifyTurnF hashText maxTokens (maxTokens * 4))

/-! ## Block grouping from branch entries (`groupEntriesIntoBlocks`) -/

/-- One transcript entry as delivered by the host.  `summary` is only
meaningful for `compaction`/`branch_summary` entries, `message` for
`message` entries, `data` for `custom` entries (already serialized), and
`content` for `custom_message` entries. -/
structure BranchEntry where
  type : String
  id : Option Str
  message : Option Msg
  summary : Str
  data : Option Str
  content : Str
deriving DecidableEq

/-- `getMessageFromEntry(entry)` (the JS truthiness tests on `entry.message`,
`entry.data` become `Option`/emptiness tests). -/
def getMessageFromEntry (entry : BranchEntry) : Option Msg :=
  if entry.type == "message" then entry.message
  else if entry.type == "custom" && (match entry.data with
      | some d => !d.isEmpty
      | none => false) then
    some (.assistant (.str (entry.data.getD [])))
  else if entry.type == "custom_message" then some (.custom (.str entry.content))
  else if entry.type == "compaction" then some (.compactionSummary entry.summary)
  else if entry.type == "branch_summary" then some (.branchSummary entry.summary)
  else none

/-- Step 1 of `groupEntriesIntoBlocks`: the loop
`for (let i = startIndex; i < branchEntries.length; i++)`, fed here the
index-paired suffix `List.enumFrom startIndex (entries.drop startIndex)`. -/
def groupTurnsE (acc : List EntryRec) : List (Nat × BranchEntry) → List (List EntryRec)
  | [] => if acc.isEmpty then [] else [acc]
  | (i, entry) :: rest =>
    match getMessageFromEntry entry with
    | none => groupTurnsE acc rest
    | some msg =>
      if msg.isSummaryRole then groupTurnsE acc rest
      else if msg.isUserRole && !acc.isEmpty then
        acc :: groupTurnsE [⟨i, entry.id, msg⟩] rest
      else groupTurnsE (acc ++ [⟨i, entry.id, msg⟩]) rest

/-- Steps 2–3 of `groupEntriesIntoBlocks` for one oversized turn. -/
def splitTurnE (hashText : Str → Str) (maxTokens maxChars : Nat)
    (blockEntries : List EntryRec) (blockTokens : Nat) : List EntryRec → List EBlock
  | [] => if blockEntries.isEmpty then [] else [finalizeEntryBlock hashText blockEntries]
  | e :: rest =>
    let msgText := extractMessageText e.message
    let msgTokens := estimateTokens msgText
    if maxTokens < msgTokens then
      (if blockEntries.isEmpty then [] else [finalizeEntryBlock hashText blockEntries]) ++
      (hardSplitText msgText maxChars).map (fun chunk =>
        { entries := [e], firstEntryId := e.id, firstEntryIndex := e.index,
          text := chunk, hash := hashText chunk, tokens := estimateTokens chunk }) ++
      splitTurnE hashText maxTokens maxChars [] 0 rest
    else if maxTokens < blockTokens + msgTokens && !blockEntries.isEmpty then
      finalizeEntryBlock hashText blockEntries ::
        splitTurnE hashText maxTokens maxChars [e] msgTokens rest
    else splitTurnE hashText maxTokens maxChars (blockEntries ++ [e]) (blockTokens + msgTokens) rest

/-- Blocks of one entry turn. -/
def blockifyTurnE (hashText : Str → Str) (maxTokens maxChars : Nat)
    (turnEntries : List EntryRec) : List EBlock :=
  let turnText := joinSep "\n\n".data (turnEntries.map (fun e => extractMessageText e.message))
  if estimateTokens turnText ≤ maxTokens then [finalizeEntryBlock hashText turnEntries]
  else splitTurnE hashText maxTokens maxChars [] 0 turnEntries

/-- `groupEntriesIntoBlocks(branchEntries, startIndex)`: the indexed
segmentation entry point used by the compaction handler. -/
def groupEntriesIntoBlocks (hashText : Str → Str) (cfg : Config)
    (branchEntries : List BranchEntry) (startIndex : Nat) : List EBlock :=
  let maxTokens := maxTokensOf cfg
  (groupTurnsE [] (List.enumFrom startIndex (branchEntries.drop startIndex))).flatMap
    (blockifyTurnE hashText maxTokens (maxTokens * 4))

/-! ## Content-addressable cache -/

/-- One cache value: `{compressed, tokensRaw, tokensCompressed}`. -/
structure CacheEntry where
  compressed : Str
  tokensRaw : Nat
  tokensCompressed : Nat
deriving DecidableEq

/-- The in-memory `messageCache` `Map`, as an insertion-ordered association
list keyed by block hash. -/
abbrev Cache : Type := List (Str × CacheEntry)

/-- `messageCache.get(hash)`. -/
def cacheGet (cache : Cache) (hash : Str) : Option CacheEntry :=
  (cache.find? (fun p => p.1 == hash)).map (fun p => p.2)

/-- `messageCache.set(hash, entry)`: overwrite in place, or append. -/
def cacheSet (cache : Cache) (hash : Str) (entry : CacheEntry) : Cache :=
  if cache.any (fun p => p.1 == hash) then
    cache.map (fun p => if p.1 == hash then (hash, entry) else p)
  else cache ++ [(hash, entry)]

/-! ## Compression adapter (`compressSingleBlock`) -/

/-- `compressSingleBlock(rawText)`.

`avail` models `completeSimple && resolvedApiKey` (the guard at function
entry), `apiKeyOk` models the per-provider `resolveApiKeyForProvider` lookup
checked after the minimum-size branch.  `service` is the completion call:
`none` for a thrown error or error stop-reason, `some c` for a success whose
text parts join to `c`.  The JS float guard
`compressedTokens >= rawTokens * 0.95` is `19 * rawTokens ≤ 20 * compressedTokens`. -/
def compressSingleBlock (avail apiKeyOk : Bool) (cfg : Config)
    (service : Str → Option Str) (rawText : Str) : Option CacheEntry :=
  if !avail then none
  else
    let rawTokens := estimateTokens rawText
    if rawText.length < cfg.minCompressChars then
      some { compressed := rawText, tokensRaw := rawTokens, tokensCompressed := rawTokens }
    else if !apiKeyOk then none
    else
      match service rawText with
      | none => none
      | some compressed =>
        let compressedTokens := estimateTokens compressed
        if 19 * rawTokens ≤ 20 * compressedTokens then
          some { compressed := rawText, tokensRaw := rawTokens, tokensCompressed := rawTokens }
        else
          some { compressed := compressed, tokensRaw := rawTokens,
                 tokensCompressed := compressedTokens }

/-! ## Engine state -/

/-- One `compactionHistory` element:
`{compressed, tokensRaw, tokensCompressed, timestamp}`. -/
structure HistEntry where
  compressed : Str
  tokensRaw : Nat
  tokensCompressed : Nat
  timestamp : Nat
deriving DecidableEq

/-- Mutable module state touched by the engine.  `compactionHistory`,
`messageCache`, `compressionQueue` and `deferredMin`
(`deferredCompactionMinBlocks`) are the in-memory variables;
`savedHistory`/`savedCache` are the durable on-disk copies written by
`saveCompactionHistory`/`saveMessageCache`; `rawArchive` is the
`r-memory/archive` directory (hash-keyed raw blocks) and `memArchive` the
`memory/archive` directory (evicted compressed blocks), both as
filename-keyed association lists. -/
structure RMState where
  compactionHistory : List HistEntry
  messageCache : Cache
  compressionQueue : List (Str × Str)
  deferredMin : Nat
  savedHistory : List HistEntry
  savedCache : Cache
  rawArchive : List (Str × Str)
  memArchive : List (Str × Str)
deriving DecidableEq

/-- `archiveRawBlock(hash, rawText)`: write-once, keyed by content hash. -/
def archiveRawBlock (hash rawText : Str) (arch : List (Str × Str)) : List (Str × Str) :=
  let filename := hash ++ ".md".data
  if arch.any (fun p => p.1 == filename) then arch
  else arch ++ [(filename, rawText)]

/-- `processQueue()`: with background pre-compression disabled (Fix 3), the
queue is drained into the raw archive only. -/
def processQueue (st : RMState) : RMState :=
  { st with compressionQueue := [],
            rawArchive := st.compressionQueue.foldl
              (fun a (item : Str × Str) => archiveRawBlock item.2 item.1 a) st.rawArchive }

/-- `queueBlock(block)`: skip when disabled/unavailable or already cached;
store trivially small blocks verbatim; otherwise enqueue (resetting the
deferred-compaction state) and process the queue. -/
def queueBlock (cfg : Config) (avail : Bool) (block : Block) (st : RMState) : RMState :=
  if !(cfg.enabled && avail) then st
  else if (cacheGet st.messageCache block.hash).isSome then st
  else if block.text.length < cfg.minCompressChars then
    { st with messageCache :=
        cacheSet st.messageCache block.hash ⟨block.text, block.tokens, block.tokens⟩ }
  else
    processQueue { st with
      compressionQueue := st.compressionQueue ++ [(block.text, block.hash)],
      deferredMin := 0 }

/-! ## FIFO eviction and the archive bridge -/

/-- The metadata header prepended to an evicted block's archive file.
`isoFull` renders `new Date(ts).toISOString()` and `sessionId` is
`currentSessionId || "unknown"`. -/
def archiveHeader (isoFull : Nat → Str) (sessionId : Str) (e : HistEntry) : Str :=
  "# R-Memory Archive Block\n- **Date:** ".data ++ isoFull e.timestamp ++
  "\n- **Session:** ".data ++ sessionId ++
  "\n- **Tokens:** ".data ++ (Nat.repr e.tokensCompressed).data ++
  " compressed (was ".data ++ (Nat.repr e.tokensRaw).data ++ " raw)\n\n---\n\n".data

/-- The archive filename `rmem-<date>-<hash8>.md` of one evicted entry
(`dateStr` renders `toISOString().slice(0,10)`, `hash8` the truncated
SHA-256 of the compressed content). -/
def evictFilename (dateStr : Nat → Str) (hash8 : Str → Str) (e : HistEntry) : Str :=
  "rmem-".data ++ dateStr e.timestamp ++ "-".data ++ hash8 e.compressed ++ ".md".data

/-- `archiveEvictedBlock(block)`: write the evicted entry's compressed content
(under a metadata header) to `memory/archive/` — write-once, skipped when the
file already exists.  Filesystem failures (the `catch` branch) are outside the
model. -/
def archiveEvictedBlock (dateStr isoFull : Nat → Str) (hash8 : Str → Str) (sessionId : Str)
    (e : HistEntry) (arch : List (Str × Str)) : List (Str × Str) :=
  let filename := evictFilename dateStr hash8 e
  if arch.any (fun p => p.1 == filename) then arch
  else arch ++ [(filename, archiveHeader isoFull sessionId e ++ e.compressed)]

/-- The `while` loop of `applyFifoEviction`: evict oldest-first while the
running total exceeds `evictTrigger`. -/
def evictLoop (evictTrigger : Nat) (dateStr isoFull : Nat → Str) (hash8 : Str → Str)
    (sessionId : Str) : Nat → List HistEntry → List (Str × Str) →
    List HistEntry × List (Str × Str)
  | _, [], arch => ([], arch)
  | total, oldest :: rest, arch =>
    if evictTrigger < total then
      evictLoop evictTrigger dateStr isoFull hash8 sessionId
        (total - (oldest.tokensCompressed + 15)) rest
        (archiveEvictedBlock dateStr isoFull hash8 sessionId oldest arch)
    else (oldest :: rest, arch)

/-- `applyFifoEviction()`: `overheadPerBlock = 15`, `baseOverhead = 20`. -/
def applyFifoEviction (cfg : Config) (dateStr isoFull : Nat → Str) (hash8 : Str → Str)
    (sessionId : Str) (history : List HistEntry) (arch : List (Str × Str)) :
    List HistEntry × List (Str × Str) :=
  evictLoop cfg.evictTrigger dateStr isoFull hash8 sessionId
    (20 + (history.map (fun e => e.tokensCompressed + 15)).sum) history arch

/-! ## Compaction swap controller (`handleBeforeCompact`) -/

/-- The handler's return value.  `noResult` is JS `undefined` (returned both
when the extension is disabled and at every cancellation-signal abort point),
`cancel` is `{cancel: true}`, and `compaction` carries
`{summary, firstKeptEntryId, tokensBefore}` (the empty `details` field is
constant and omitted). -/
inductive CompactResult where
  | noResult
  | cancel
  | compaction (summary : Str) (firstKeptEntryId : Option Str) (tokensBefore : Nat)
deriving DecidableEq

def CompactResult.isCompaction : CompactResult → Bool
  | .compaction _ _ _ => true
  | _ => false

/-- The backwards scan for the last `type === "compaction"` entry. -/
def findLastCompactionIndex (entries : List BranchEntry) : Option Nat :=
  (List.range entries.length).foldl (fun acc i =>
    match entries.get? i with
    | some e => if e.type == "compaction" then some i else acc
    | none => acc) none

/-- The handler's segmentation of the window after the previous compaction
point, with tiny blocks (`tokens < minSwapTokens`) filtered out (Fix 2). -/
def filteredBlocks (hashText : Str → Str) (cfg : Config)
    (entries : List BranchEntry) : List EBlock :=
  let startIdx := match findLastCompactionIndex entries with
    | some i => i + 1
    | none => 0
  (groupEntriesIntoBlocks hashText cfg entries startIdx).filter
    (fun b => minSwapTokensOf cfg ≤ b.tokens)

/-- Estimated savings of swapping one block: `block.tokens` minus the cached
compressed size, or minus the fixed discount `Math.ceil(block.tokens * 0.6)`
(`= ⌈3·tokens/5⌉`) when uncached. -/
def savingsOf (cache : Cache) (b : EBlock) : Int :=
  (b.tokens : Int) - (match cacheGet cache b.hash with
    | some e => (e.tokensCompressed : Int)
    | none => ((3 * b.tokens + 4) / 5 : Nat))

/-- The savings walk: break as soon as `totalSaved >= overflow` (checked
before accumulating), else accumulate and count. -/
def swapWalk (overflow : Int) : Int → Nat → List Int → Nat
  | _, count, [] => count
  | totalSaved, count, s :: rest =>
    if overflow ≤ totalSaved then count
    else swapWalk overflow (totalSaved + s) (count + 1) rest

/-- Lines 875–889 of the handler: the walk plus the `if (blocksToSwap === 0)
blocksToSwap = 1` fixup. -/
def computeBlocksToSwap (cache : Cache) (blocks : List EBlock) (overflow : Int) : Nat :=
  let k := swapWalk overflow 0 0 (blocks.map (savingsOf cache))
  if k = 0 then 1 else k

/-- The swap count after the keep-one-raw clamp
(`if (blocksToSwap >= blocks.length) blocksToSwap = blocks.length - 1`);
`0` means the handler defers. -/
def plannedSwapCount (hashText : Str → Str) (cfg : Config) (st : RMState)
    (entries : List BranchEntry) (tokensBefore : Nat) : Nat :=
  let blocks := filteredBlocks hashText cfg entries
  let overflow : Int := (tokensBefore : Int) - (cfg.compressTrigger : Int)
  let k0 := computeBlocksToSwap st.messageCache blocks overflow
  if blocks.length ≤ k0 then blocks.length - 1 else k0

/-- Seeding of the history with a pre-existing compacted summary on the very
first swap of a session (lines 926–938). -/
def seedHistory (entries : List BranchEntry) (prevIdx : Option Nat) (now : Nat)
    (history : List HistEntry) : List HistEntry :=
  if history.isEmpty then
    match prevIdx with
    | some i =>
      match entries.get? i with
      | some pe =>
        if pe.summary.isEmpty then history
        else history ++ [⟨pe.summary, estimateTokens pe.summary,
                          estimateTokens pe.summary, now - 1⟩]
      | none => history
    | none => history
  else history

/-- JS falsiness of the `firstKeptEntryId` guard: absent or empty string. -/
def optFalsy (o : Option Str) : Bool :=
  match o with
  | none => true
  | some s => s.isEmpty

/-- One cache miss queued for on-demand compression
(`{text, hash, tokens, slotIndex}`). -/
structure Missed where
  text : Str
  hash : Str
  tokens : Nat
  slotIndex : Nat
deriving DecidableEq

/-- The swap loop's cache lookups: slot `i` holds the cached entry of the
`i`-th swapped block or `none`, and every miss is recorded with its slot. -/
def buildSlots (cache : Cache) : Nat → List EBlock → List (Option CacheEntry) × List Missed
  | _, [] => ([], [])
  | i, b :: rest =>
    let tail := buildSlots cache (i + 1) rest
    match cacheGet cache b.hash with
    | some e => (some e :: tail.1, tail.2)
    | none => (none :: tail.1, ⟨b.text, b.hash, b.tokens, i⟩ :: tail.2)

/-- The raw-archive writes of the swap loop. -/
def archiveRawBlocks (toSwap : List EBlock) (arch : List (Str × Str)) : List (Str × Str) :=
  toSwap.foldl (fun a b => archiveRawBlock b.hash b.text a) arch

/-- `missedBlocks.slice(i, i + maxParallelCompressions)` batching, with fuel
`l.length` (every step consumes at least the head, so the fuel never runs
out).  With `P = 0` the JS loop would never terminate; the model then
degenerates to singleton batches (unreachable under the shipped
configuration). -/
def chunksOfGo (P : Nat) : Nat → List α → List (List α)
  | _, [] => []
  | 0, x :: xs => [x :: xs]
  | fuel + 1, x :: xs => (x :: xs.take (P - 1)) :: chunksOfGo P fuel (xs.drop (P - 1))

def chunksOf (P : Nat) (l : List α) : List (List α) := chunksOfGo P l.length l

/-- Result of the on-demand compression batches. -/
structure BatchOut where
  aborted : Bool
  sigIdx : Nat
  cache : Cache
  slots : List (Option CacheEntry)
deriving DecidableEq

/-- The on-demand compression loop: one cancellation check before each batch;
each miss gets `compressSingleBlock` or the verbatim fallback
`{compressed: b.text, tokensRaw: b.tokens, tokensCompressed: b.tokens}`, is
written to the cache, and fills its slot. -/
def runBatches (avail apiKeyOk : Bool) (cfg : Config) (service : Str → Option Str)
    (signal : Nat → Bool) : List (List Missed) → Nat → Cache →
    List (Option CacheEntry) → BatchOut
  | [], sigIdx, cache, slots => ⟨false, sigIdx, cache, slots⟩
  | batch :: rest, sigIdx, cache, slots =>
    if signal sigIdx then ⟨true, sigIdx, cache, slots⟩
    else
      let results := batch.map (fun b =>
        ((compressSingleBlock avail apiKeyOk cfg service b.text).getD
          ⟨b.text, b.tokens, b.tokens⟩, b))
      let cache' := results.foldl
        (fun c (r : CacheEntry × Missed) => cacheSet c r.2.hash r.1) cache
      let slots' := results.foldl
        (fun s (r : CacheEntry × Missed) => s.set r.2.slotIndex (some r.1)) slots
      runBatches avail apiKeyOk cfg service signal rest (sigIdx + 1) cache' slots'

/-- `compressedParts`: the compressed text of every filled slot. -/
def assembleParts (slots : List (Option CacheEntry)) : List Str :=
  slots.filterMap (fun s => s.map (fun e => e.compressed))

/-- The final compressed-history document returned to the host
(`contentParts`); `iso16` renders `toISOString().slice(0,16)`. -/
def buildCompressedContent (iso16 : Nat → Str) (history : List HistEntry) : Str :=
  joinSep "\n".data (
    ["# R-Memory: Compressed Conversation History".data,
     "_".data ++ (Nat.repr history.length).data ++ " blocks | ~".data ++
       (Nat.repr (history.map (fun e => e.tokensCompressed)).sum).data ++
       " tokens (was ~".data ++
       (Nat.repr (history.map (fun e => e.tokensRaw)).sum).data ++ " raw)_".data,
     []] ++
    history.enum.flatMap (fun (p : Nat × HistEntry) =>
      ["## Block ".data ++ (Nat.repr (p.1 + 1)).data ++ " [".data ++
         iso16 p.2.timestamp ++ "]".data,
       p.2.compressed, []]))

/-- The tail of the handler from `toSwap`/`toKeepRaw` on (lines 902–1053):
the `firstKeptEntryId` guard, history seeding, the cancellation-checked swap
and on-demand compression, history append, eviction, and the durable saves
(which only happen on the success path). -/
def swapPhase (hashText hash8 : Str → Str) (dateStr isoFull iso16 : Nat → Str)
    (sessionId : Str) (cfg : Config) (avail apiKeyOk : Bool)
    (service : Str → Option Str) (signal : Nat → Bool)
    (entries : List BranchEntry) (tokensBefore now : Nat) (prevIdx : Option Nat)
    (blocks : List EBlock) (k1 : Nat) (st : RMState) : CompactResult × RMState :=
  let toSwap := blocks.take k1
  let toKeepRaw := blocks.drop k1
  let firstKeptEntryId : Option Str :=
    match toKeepRaw.head? with
    | some b => b.firstEntryId
    | none => match entries.getLast? with
      | some e => e.id
      | none => none
  if optFalsy firstKeptEntryId then (.cancel, st)
  else
    let st1 := { st with
      compactionHistory := seedHistory entries prevIdx now st.compactionHistory }
    if signal 0 then (.noResult, st1)
    else
      let st2 := { st1 with rawArchive := archiveRawBlocks toSwap st1.rawArchive }
      let sm := buildSlots st2.messageCache 0 toSwap
      let out := runBatches avail apiKeyOk cfg service signal
        (chunksOf cfg.maxParallelCompressions sm.2) 1 st2.messageCache sm.1
      let st3 := { st2 with messageCache := out.cache }
      if out.aborted then (.noResult, st3)
      else if signal out.sigIdx then (.noResult, st3)
      else
        let totalRaw := (toSwap.map (fun b => b.tokens)).sum
        let newBlock := joinSep "\n\n---\n\n".data (assembleParts out.slots)
        let hist1 := st3.compactionHistory ++
          [⟨newBlock, totalRaw, estimateTokens newBlock, now⟩]
        let ev := applyFifoEviction cfg dateStr isoFull hash8 sessionId hist1 st3.memArchive
        let st4 := { st3 with
          compactionHistory := ev.1, memArchive := ev.2,
          savedHistory := ev.1, savedCache := st3.messageCache }
        (.compaction (buildCompressedContent iso16 ev.1) firstKeptEntryId tokensBefore, st4)

/-- `handleBeforeCompact(event)` for an event of an already-loaded session
(`detectSessionId(branchEntries) = currentSessionId`, so no history reload;
the purely diagnostic logging passes are omitted). -/
def handleBeforeCompact (hashText hash8 : Str → Str) (dateStr isoFull iso16 : Nat → Str)
    (sessionId : Str) (cfg : Config) (avail apiKeyOk : Bool)
    (service : Str → Option Str) (signal : Nat → Bool)
    (entries : List BranchEntry) (tokensBefore now : Nat) (st : RMState) :
    CompactResult × RMState :=
  if !cfg.enabled then (.noResult, st)
  else if entries.isEmpty then (.cancel, st)
  else if !avail then (.cancel, st)
  else
    let prevIdx := findLastCompactionIndex entries
    let blocks := filteredBlocks hashText cfg entries
    if blocks.isEmpty then (.cancel, st)
    else if 0 < st.deferredMin && blocks.length < st.deferredMin then (.cancel, st)
    else
      let overflow : Int := (tokensBefore : Int) - (cfg.compressTrigger : Int)
      if overflow ≤ 0 then (.cancel, st)
      else
        let k1 := plannedSwapCount hashText cfg st entries tokensBefore
        if k1 = 0 then (.cancel, { st with deferredMin := 2 })
        else
          swapPhase hashText hash8 dateStr isoFull iso16 sessionId cfg avail apiKeyOk
            service signal entries tokensBefore now prevIdx blocks k1
            { st with deferredMin := 0 }

/-! ## Helper lemmas -/

theorem hardSplitGo_join (maxChars : Nat) :
    ∀ (fuel : Nat) (remaining : Str),
      (hardSplitGo maxChars fuel remaining).flatten = remaining := by
  intro fuel
  induction fuel with
  | zero =>
    intro remaining
    by_cases h : remaining.isEmpty
    · simp [hardSplitGo, h, List.isEmpty_iff.mp h]
    · simp [hardSplitGo, h]
  | succ fuel ih =>
    intro remaining
    by_cases h : maxChars < remaining.length
    · simp only [hardSplitGo, if_pos h, List.flatten]
      rw [ih]
      exact List.take_append_drop _ _
    · by_cases h2 : remaining.isEmpty
      · simp [hardSplitGo, h, h2, List.isEmpty_iff.mp h2]
      · simp [hardSplitGo, h, h2]

theorem hardSplitGo_nonempty (maxChars : Nat) (hm : 1 ≤ maxChars) :
    ∀ (fuel : Nat) (remaining : Str),
      ∀ c ∈ hardSplitGo maxChars fuel remaining, c ≠ [] := by
  intro fuel
  induction fuel with
  | zero =>
    intro remaining c hc
    by_cases h : remaining.isEmpty
    · simp [hardSplitGo, h] at hc
    · simp [hardSplitGo, h] at hc
      subst hc
      exact fun he => h (by simp [he, List.isEmpty])
  | succ fuel ih =>
    intro remaining c hc
    by_cases h : maxChars < remaining.length
    · simp only [hardSplitGo, if_pos h, List.mem_cons] at hc
      rcases hc with hc | hc
      · subst hc
        have hrem : remaining ≠ [] := by
          intro he; rw [he] at h; simp at h
        have hcut : ¬ ((match lastNewlineLE remaining maxChars with
            | some p => if 7 * maxChars < 10 * p then p + 1 else maxChars
            | none => maxChars) = 0) := by
          cases hn : lastNewlineLE remaining maxChars with
          | none => simpa using by omega
          | some p =>
            by_cases hp : 7 * maxChars < 10 * p
            · simp [hp]
            · simpa [hp] using by omega
        intro he
        rcases List.take_eq_nil_iff.mp he with h0 | h0
        · exact hcut h0
        · exact hrem h0
      · exact ih _ c hc
    · by_cases h2 : remaining.isEmpty
      · simp [hardSplitGo, h, h2] at hc
      · simp [hardSplitGo, h, h2] at hc
        subst hc
        exact fun he => h2 (by simp [he, List.isEmpty])

/-- C10: `hardSplitText` loses, duplicates and reorders nothing, and (for
`maxChars ≥ 1`) never emits an empty chunk. -/
theorem hard_split_exact_cover (text : Str) (maxChars : Nat) (h : 1 ≤ maxChars) :
    (hardSplitText text maxChars).flatten = text ∧
    ∀ c ∈ hardSplitText text maxChars, c ≠ [] :=
  ⟨hardSplitGo_join maxChars text.length text,
   hardSplitGo_nonempty maxChars h text.length text⟩

/-- Witness for C10 at a concrete input containing a newline split point. -/
theorem hard_split_exact_cover_witness :
    (hardSplitText "abcde\nfgh\nij".data 4).flatten = "abcde\nfgh\nij".data ∧
    ∀ c ∈ hardSplitText "abcde\nfgh\nij".data 4, c ≠ [] :=
  hard_split_exact_cover "abcde\nfgh\nij".data 4 (by decide)

theorem evictLoop_bound (evictTrigger : Nat) (dateStr isoFull : Nat → Str)
    (hash8 : Str → Str) (sessionId : Str) :
    ∀ (history : List HistEntry) (total : Nat) (arch : List (Str × Str)),
      total = 20 + (history.map (fun e => e.tokensCompressed + 15)).sum →
      (evictLoop evictTrigger dateStr isoFull hash8 sessionId total history arch).1 = [] ∨
      20 + (((evictLoop evictTrigger dateStr isoFull hash8 sessionId total history arch).1.map
        (fun e => e.tokensCompressed + 15)).sum) ≤ evictTrigger := by
  intro history
  induction history with
  | nil => intro total arch _; left; simp [evictLoop]
  | cons oldest rest ih =>
    intro total arch htotal
    by_cases h : evictTrigger < total
    · simp only [evictLoop, if_pos h]
      apply ih
      simp only [List.map_cons, List.sum_cons] at htotal
      omega
    · right
      simp only [evictLoop, if_neg h]
      omega

/-- C2: after `applyFifoEviction`, the history is empty or the base overhead
plus the per-entry totals (`tokensCompressed + overheadPerBlock`) fit under
`evictTrigger`. -/
theorem fifo_eviction_bound (cfg : Config) (dateStr isoFull : Nat → Str)
    (hash8 : Str → Str) (sessionId : Str) (history : List HistEntry)
    (arch : List (Str × Str)) :
    (applyFifoEviction cfg dateStr isoFull hash8 sessionId history arch).1 = [] ∨
    20 + (((applyFifoEviction cfg dateStr isoFull hash8 sessionId history arch).1.map
      (fun e => e.tokensCompressed + 15)).sum) ≤ cfg.evictTrigger :=
  evictLoop_bound cfg.evictTrigger dateStr isoFull hash8 sessionId history _ arch rfl

theorem archiveEvictedBlock_mem (dateStr isoFull : Nat → Str) (hash8 : Str → Str)
    (sessionId : Str) (e : HistEntry) (arch : List (Str × Str)) :
    evictFilename dateStr hash8 e ∈
      (archiveEvictedBlock dateStr isoFull hash8 sessionId e arch).map Prod.fst := by
  unfold archiveEvictedBlock
  by_cases h : arch.any (fun p => p.1 == evictFilename dateStr hash8 e)
  · simp only [if_pos h]
    rcases List.any_eq_true.mp h with ⟨p, hp, hpe⟩
    exact List.mem_map.mpr ⟨p, hp, (beq_iff_eq.mp hpe)⟩
  · simp [if_neg h]

theorem evictLoop_arch_mono (evictTrigger : Nat) (dateStr isoFull : Nat → Str)
    (hash8 : Str → Str) (sessionId : Str) (fn : Str) :
    ∀ (history : List HistEntry) (total : Nat) (arch : List (Str × Str)),
      fn ∈ arch.map Prod.fst →
      fn ∈ (evictLoop evictTrigger dateStr isoFull hash8 sessionId total history arch).2.map
        Prod.fst := by
  intro history
  induction history with
  | nil => intro total arch h; simpa [evictLoop] using h
  | cons oldest rest ih =>
    intro total arch h
    by_cases ht : evictTrigger < total
    · simp only [evictLoop, if_pos ht]
      apply ih
      unfold archiveEvictedBlock
      by_cases ha : arch.any (fun p => p.1 == evictFilename dateStr hash8 oldest)
      · simpa [if_pos ha] using h
      · simp only [if_neg ha, List.map_append]
        exact List.mem_append_left _ h
    · simpa [evictLoop, if_neg ht] using h

theorem evictLoop_archives (evictTrigger : Nat) (dateStr isoFull : Nat → Str)
    (hash8 : Str → Str) (sessionId : Str) :
    ∀ (history : List HistEntry) (total : Nat) (arch : List (Str × Str)),
      ∃ k, (evictLoop evictTrigger dateStr isoFull hash8 sessionId total history arch).1 =
            history.drop k ∧
        ∀ e ∈ history.take k, evictFilename dateStr hash8 e ∈
          (evictLoop evictTrigger dateStr isoFull hash8 sessionId total history arch).2.map
            Prod.fst := by
  intro history
  induction history with
  | nil => intro total arch; exact ⟨0, by simp [evictLoop]⟩
  | cons oldest rest ih =>
    intro total arch
    by_cases ht : evictTrigger < total
    · obtain ⟨k, hk1, hk2⟩ := ih (total - (oldest.tokensCompressed + 15))
        (archiveEvictedBlock dateStr isoFull hash8 sessionId oldest arch)
      refine ⟨k + 1, ?_, ?_⟩
      · simpa [evictLoop, if_pos ht] using hk1
      · intro e he
        simp only [List.take_succ_cons, List.mem_cons] at he
        simp only [evictLoop, if_pos ht]
        rcases he with he | he
        · subst he
          exact evictLoop_arch_mono _ _ _ _ _ _ rest _ _
            (archiveEvictedBlock_mem dateStr isoFull hash8 sessionId e arch)
        · exact hk2 e he
    · exact ⟨0, by simp [evictLoop, if_neg ht]⟩

/-- C8: `archiveEvictedBlock` writes the full compressed content (under its
metadata header) to the date-and-content-hash-derived filename, skipping the
write exactly when that file already exists; and every entry evicted by
`applyFifoEviction` has an archive record under that filename afterwards. -/
theorem evicted_blocks_archived (cfg : Config) (dateStr isoFull : Nat → Str)
    (hash8 : Str → Str) (sessionId : Str) :
    (∀ (e : HistEntry) (arch : List (Str × Str)),
      (evictFilename dateStr hash8 e ∈ arch.map Prod.fst →
        archiveEvictedBlock dateStr isoFull hash8 sessionId e arch = arch) ∧
      (evictFilename dateStr hash8 e ∉ arch.map Prod.fst →
        archiveEvictedBlock dateStr isoFull hash8 sessionId e arch =
          arch ++ [(evictFilename dateStr hash8 e,
            archiveHeader isoFull sessionId e ++ e.compressed)])) ∧
    (∀ (history : List HistEntry) (arch : List (Str × Str)),
      ∃ k, (applyFifoEviction cfg dateStr isoFull hash8 sessionId history arch).1 =
            history.drop k ∧
        ∀ e ∈ history.take k, evictFilename dateStr hash8 e ∈
          (applyFifoEviction cfg dateStr isoFull hash8 sessionId history arch).2.map
            Prod.fst) := by
  constructor
  · intro e arch
    have hiff : (arch.any fun p => p.1 == evictFilename dateStr hash8 e) = true ↔
        evictFilename dateStr hash8 e ∈ arch.map Prod.fst := by
      constructor
      · intro ha
        rcases List.any_eq_true.mp ha with ⟨p, hp, hpe⟩
        exact List.mem_map.mpr ⟨p, hp, beq_iff_eq.mp hpe⟩
      · intro hmem
        rcases List.mem_map.mp hmem with ⟨p, hp, hpe⟩
        exact List.any_eq_true.mpr ⟨p, hp, beq_iff_eq.mpr hpe⟩
    constructor
    · intro hmem
      unfold archiveEvictedBlock
      simp only [if_pos (hiff.mpr hmem)]
    · intro hmem
      unfold archiveEvictedBlock
      simp only [if_neg (fun h => hmem (hiff.mp h))]
  · intro history arch
    exact evictLoop_archives cfg.evictTrigger dateStr isoFull hash8 sessionId history _ arch

/-- Witness for C8: a two-entry history over the eviction threshold; both the
skip branch and the write branch of `archiveEvictedBlock`, and the archived
eviction, at concrete inputs. -/
theorem evicted_blocks_archived_witness :
    (evictFilename (fun _ => "d".data) (fun _ => "h".data)
        ⟨"cc".data, 4, 2, 7⟩ ∈ ([] : List (Str × Str)).map Prod.fst →
      archiveEvictedBlock (fun _ => "d".data) (fun _ => "i".data) (fun _ => "h".data)
        "s".data ⟨"cc".data, 4, 2, 7⟩ [] = []) ∧
    (evictFilename (fun _ => "d".data) (fun _ => "h".data)
        ⟨"cc".data, 4, 2, 7⟩ ∉ ([] : List (Str × Str)).map Prod.fst →
      archiveEvictedBlock (fun _ => "d".data) (fun _ => "i".data) (fun _ => "h".data)
        "s".data ⟨"cc".data, 4, 2, 7⟩ [] =
        [] ++ [(evictFilename (fun _ => "d".data) (fun _ => "h".data) ⟨"cc".data, 4, 2, 7⟩,
          archiveHeader (fun _ => "i".data) "s".data ⟨"cc".data, 4, 2, 7⟩ ++ "cc".data)]) :=
  (evicted_blocks_archived
    { DEFAULT_CONFIG with evictTrigger := 40 }
    (fun _ => "d".data) (fun _ => "i".data) (fun _ => "h".data) "s".data).1
    ⟨"cc".data, 4, 2, 7⟩ []

/-- C4: for input at or above `minCompressChars`, the service's output is
accepted as the compressed entry exactly when its token estimate is strictly
below 95% of the raw estimate (`compressedTokens < rawTokens * 0.95`, i.e.
`20·compressed < 19·raw`); otherwise the returned entry is the raw text with
`tokensCompressed = tokensRaw`. -/
theorem compression_accept_threshold (cfg : Config) (service : Str → Option Str)
    (rawText c : Str) (hlen : cfg.minCompressChars ≤ rawText.length)
    (hs : service rawText = some c) :
    (20 * estimateTokens c < 19 * estimateTokens rawText →
      compressSingleBlock true true cfg service rawText =
        some ⟨c, estimateTokens rawText, estimateTokens c⟩) ∧
    (19 * estimateTokens rawText ≤ 20 * estimateTokens c →
      compressSingleBlock true true cfg service rawText =
        some ⟨rawText, estimateTokens rawText, estimateTokens rawText⟩) := by
  constructor
  · intro hlt
    simp only [compressSingleBlock, hs, Bool.not_true, Bool.false_eq_true, if_false,
      if_neg (by omega : ¬ rawText.length < cfg.minCompressChars)]
    rw [if_neg (by omega)]
  · intro hge
    simp only [compressSingleBlock, hs, Bool.not_true, Bool.false_eq_true, if_false,
      if_neg (by omega : ¬ rawText.length < cfg.minCompressChars)]
    rw [if_pos (by omega)]

/-- Witness for C4: an 8-character raw text (2 tokens); a 3-character response
(1 token, < 95%) is accepted, while the raw text itself as response (2 tokens,
≥ 95%) is rejected in favour of the verbatim entry. -/
theorem compression_accept_threshold_witness :
    (20 * estimateTokens "abc".data < 19 * estimateTokens "aaaabbbb".data →
      compressSingleBlock true true { DEFAULT_CONFIG with minCompressChars := 4 }
        (fun _ => some "abc".data) "aaaabbbb".data =
        some ⟨"abc".data, estimateTokens "aaaabbbb".data, estimateTokens "abc".data⟩) ∧
    (20 * estimateTokens "abc".data < 19 * estimateTokens "aaaabbbb".data →
      True) ∧
    (19 * estimateTokens "aaaabbbb".data ≤ 20 * estimateTokens "aaaabbbb".data →
      compressSingleBlock true true { DEFAULT_CONFIG with minCompressChars := 4 }
        (fun _ => some "aaaabbbb".data) "aaaabbbb".data =
        some ⟨"aaaabbbb".data, estimateTokens "aaaabbbb".data,
          estimateTokens "aaaabbbb".data⟩) :=
  ⟨(compression_accept_threshold { DEFAULT_CONFIG with minCompressChars := 4 }
      (fun _ => some "abc".data) "aaaabbbb".data "abc".data (by decide) rfl).1,
   fun _ => trivial,
   (compression_accept_threshold { DEFAULT_CONFIG with minCompressChars := 4 }
      (fun _ => some "aaaabbbb".data) "aaaabbbb".data "aaaabbbb".data (by decide) rfl).2⟩

/-- C9: blocks below `minCompressChars` are stored verbatim and never reach
the completion service: `queueBlock` caches `{compressed: text, tokensRaw:
tokens, tokensCompressed: tokens}` directly, and `compressSingleBlock`
returns the verbatim entry for every possible service behaviour (so the
result cannot depend on any service call). -/
theorem small_blocks_stored_verbatim (cfg : Config) (block : Block) (st : RMState)
    (hsmall : block.text.length < cfg.minCompressChars) :
    (cfg.enabled = true → cacheGet st.messageCache block.hash = none →
      queueBlock cfg true block st =
        { st with messageCache :=
            cacheSet st.messageCache block.hash ⟨block.text, block.tokens, block.tokens⟩ }) ∧
    (∀ (apiKeyOk : Bool) (service : Str → Option Str),
      compressSingleBlock true apiKeyOk cfg service block.text =
        some ⟨block.text, estimateTokens block.text, estimateTokens block.text⟩) := by
  constructor
  · intro hen hmiss
    simp [queueBlock, hen, hmiss, hsmall]
  · intro apiKeyOk service
    simp [compressSingleBlock, hsmall]

/-- Witness for C9 at a concrete small block and empty cache. -/
theorem small_blocks_stored_verbatim_witness :
    (DEFAULT_CONFIG.enabled = true →
      cacheGet ([] : Cache) "h9".data = none →
      queueBlock DEFAULT_CONFIG true ⟨[], "tiny".data, "h9".data, 1⟩
          ⟨[], [], [], 0, [], [], [], []⟩ =
        { (⟨[], [], [], 0, [], [], [], []⟩ : RMState) with
            messageCache := cacheSet [] "h9".data ⟨"tiny".data, 1, 1⟩ }) ∧
    (∀ (apiKeyOk : Bool) (service : Str → Option Str),
      compressSingleBlock true apiKeyOk DEFAULT_CONFIG service "tiny".data =
        some ⟨"tiny".data, estimateTokens "tiny".data, estimateTokens "tiny".data⟩) :=
  small_blocks_stored_verbatim DEFAULT_CONFIG ⟨[], "tiny".data, "h9".data, 1⟩
    ⟨[], [], [], 0, [], [], [], []⟩ (by decide)

theorem swapWalk_shift (overflow : Int) :
    ∀ (l : List Int) (t : Int) (c : Nat),
      swapWalk overflow t c l = c + swapWalk overflow t 0 l := by
  intro l
  induction l with
  | nil => intro t c; simp [swapWalk]
  | cons s rest ih =>
    intro t c
    by_cases h : overflow ≤ t
    · simp [swapWalk, h]
    · simp only [swapWalk, if_neg h]
      rw [ih _ (c + 1), ih _ 1]
      omega

theorem swapWalk_char (overflow : Int) :
    ∀ (l : List Int) (t : Int),
      swapWalk overflow t 0 l ≤ l.length ∧
      (∀ j, j < swapWalk overflow t 0 l → t + (l.take j).sum < overflow) ∧
      (swapWalk overflow t 0 l < l.length → overflow ≤ t + (l.take (swapWalk overflow t 0 l)).sum) := by
  intro l
  induction l with
  | nil =>
    intro t
    refine ⟨by simp [swapWalk], ?_, ?_⟩ <;> simp [swapWalk]
  | cons s rest ih =>
    intro t
    by_cases h : overflow ≤ t
    · refine ⟨by simp [swapWalk, h], ?_, ?_⟩
      · intro j hj; simp [swapWalk, h] at hj
      · intro _; simpa [swapWalk, h] using h
    · have hrw : swapWalk overflow t 0 (s :: rest) = 1 + swapWalk overflow (t + s) 0 rest := by
        simp only [swapWalk, if_neg h]
        rw [swapWalk_shift]
      obtain ⟨ih1, ih2, ih3⟩ := ih (t + s)
      refine ⟨?_, ?_, ?_⟩
      · rw [hrw, List.length_cons]; omega
      · intro j hj
        rw [hrw] at hj
        match j with
        | 0 => simp only [List.take_zero, List.sum_nil, add_zero]; omega
        | j + 1 =>
          have := ih2 j (by omega)
          simp only [List.take_succ_cons, List.sum_cons]
          omega
      · intro hlt
        rw [hrw, List.length_cons] at hlt
        have h3' := ih3 (by omega)
        rw [hrw, Nat.add_comm 1, List.take_succ_cons, List.sum_cons]
        omega

/-- C7: for a non-empty filtered block list and positive overflow,
`computeBlocksToSwap` is the least `k ≥ 1` whose first `k` blocks' estimated
savings (cached: `tokens - tokensCompressed`; uncached: `tokens -
ceil(0.6·tokens)`) reach the overflow, and the number of blocks when no
prefix reaches it: `k` is in `[1, length]`, every strictly shorter prefix
saves less than the overflow, and if `k` stopped before the end then the
`k`-prefix saves at least the overflow. -/
theorem blocks_to_swap_minimal (cache : Cache) (blocks : List EBlock) (overflow : Int)
    (hov : 0 < overflow) (hne : blocks ≠ []) :
    (1 ≤ computeBlocksToSwap cache blocks overflow ∧
      computeBlocksToSwap cache blocks overflow ≤ blocks.length) ∧
    (∀ j, j < computeBlocksToSwap cache blocks overflow →
      ((blocks.map (savingsOf cache)).take j).sum < overflow) ∧
    (computeBlocksToSwap cache blocks overflow < blocks.length →
      overflow ≤ ((blocks.map (savingsOf cache)).take
        (computeBlocksToSwap cache blocks overflow)).sum) := by
  obtain ⟨h1, h2, h3⟩ := swapWalk_char overflow (blocks.map (savingsOf cache)) 0
  have hlen : (blocks.map (savingsOf cache)).length = blocks.length := List.length_map _ _
  have hk0 : swapWalk overflow 0 0 (blocks.map (savingsOf cache)) ≠ 0 := by
    intro h0
    have hpos : 0 < blocks.length := List.length_pos.mpr hne
    have := h3 (by omega)
    rw [h0] at this
    simp at this
    omega
  have hke : computeBlocksToSwap cache blocks overflow =
      swapWalk overflow 0 0 (blocks.map (savingsOf cache)) := by
    simp [computeBlocksToSwap, hk0]
  rw [hke]
  refine ⟨⟨by omega, by omega⟩, ?_, ?_⟩
  · intro j hj
    have := h2 j hj
    omega
  · intro hlt
    have := h3 (by omega)
    omega

/-- Witness for C7, the spec's Scenario C: overflow 5000, the oldest block's
cached savings are 4000 and the first two blocks together save 6000, so
`blocksToSwap = 2`. -/
theorem blocks_to_swap_minimal_witness :
    computeBlocksToSwap
      [("h1".data, ⟨"c1".data, 10000, 6000⟩), ("h2".data, ⟨"c2".data, 5000, 3000⟩)]
      [⟨[], some "e1".data, 0, "t1".data, "h1".data, 10000⟩,
       ⟨[], some "e2".data, 1, "t2".data, "h2".data, 5000⟩] 5000 = 2 ∧
    ((1 ≤ computeBlocksToSwap
        [("h1".data, ⟨"c1".data, 10000, 6000⟩), ("h2".data, ⟨"c2".data, 5000, 3000⟩)]
        [⟨[], some "e1".data, 0, "t1".data, "h1".data, 10000⟩,
         ⟨[], some "e2".data, 1, "t2".data, "h2".data, 5000⟩] 5000 ∧
      computeBlocksToSwap
        [("h1".data, ⟨"c1".data, 10000, 6000⟩), ("h2".data, ⟨"c2".data, 5000, 3000⟩)]
        [⟨[], some "e1".data, 0, "t1".data, "h1".data, 10000⟩,
         ⟨[], some "e2".data, 1, "t2".data, "h2".data, 5000⟩] 5000 ≤ 2) ∧
      (∀ j, j < computeBlocksToSwap
          [("h1".data, ⟨"c1".data, 10000, 6000⟩), ("h2".data, ⟨"c2".data, 5000, 3000⟩)]
          [⟨[], some "e1".data, 0, "t1".data, "h1".data, 10000⟩,
           ⟨[], some "e2".data, 1, "t2".data, "h2".data, 5000⟩] 5000 →
        (([⟨[], some "e1".data, 0, "t1".data, "h1".data, 10000⟩,
           ⟨[], some "e2".data, 1, "t2".data, "h2".data, 5000⟩].map (savingsOf
          [("h1".data, ⟨"c1".data, 10000, 6000⟩),
           ("h2".data, ⟨"c2".data, 5000, 3000⟩)])).take j).sum < 5000) ∧
      (computeBlocksToSwap
          [("h1".data, ⟨"c1".data, 10000, 6000⟩), ("h2".data, ⟨"c2".data, 5000, 3000⟩)]
          [⟨[], some "e1".data, 0, "t1".data, "h1".data, 10000⟩,
           ⟨[], some "e2".data, 1, "t2".data, "h2".data, 5000⟩] 5000 < 2 →
        5000 ≤ (([⟨[], some "e1".data, 0, "t1".data, "h1".data, 10000⟩,
           ⟨[], some "e2".data, 1, "t2".data, "h2".data, 5000⟩].map (savingsOf
          [("h1".data, ⟨"c1".data, 10000, 6000⟩),
           ("h2".data, ⟨"c2".data, 5000, 3000⟩)])).take
          (computeBlocksToSwap
            [("h1".data, ⟨"c1".data, 10000, 6000⟩), ("h2".data, ⟨"c2".data, 5000, 3000⟩)]
            [⟨[], some "e1".data, 0, "t1".data, "h1".data, 10000⟩,
             ⟨[], some "e2".data, 1, "t2".data, "h2".data, 5000⟩] 5000)).sum)) :=
  ⟨by decide,
   blocks_to_swap_minimal
     [("h1".data, ⟨"c1".data, 10000, 6000⟩), ("h2".data, ⟨"c2".data, 5000, 3000⟩)]
     [⟨[], some "e1".data, 0, "t1".data, "h1".data, 10000⟩,
      ⟨[], some "e2".data, 1, "t2".data, "h2".data, 5000⟩] 5000 (by decide) (by decide)⟩

/-! ## Block-size ceiling (C5) -/

/-- A hard-split fragment: a single-message block whose source message alone
exceeded the token ceiling. -/
def isHardFragment (maxTokens : Nat) (b : Block) : Bool :=
  match b.messages with
  | [m] => decide (maxTokens < estimateTokens (extractMessageText m))
  | _ => false

theorem joinSep_length (sep : Str) :
    ∀ (l : List Str),
      (joinSep sep l).length = (l.map List.length).sum + sep.length * (l.length - 1) := by
  intro l
  induction l with
  | nil => simp [joinSep]
  | cons t rest ih =>
    cases rest with
    | nil => simp [joinSep]
    | cons u rest2 =>
      simp only [joinSep, List.length_append, List.map_cons, List.sum_cons,
        List.length_cons, Nat.add_sub_cancel] at ih ⊢
      rw [ih]
      ring

theorem length_sum_le_four_estimate (texts : List Str) :
    (texts.map List.length).sum ≤ 4 * (texts.map estimateTokens).sum := by
  induction texts with
  | nil => simp
  | cons t rest ih =>
    simp only [List.map_cons, List.sum_cons]
    have : t.length ≤ 4 * estimateTokens t := by
      unfold estimateTokens; omega
    omega

theorem estimate_joinSep_le (texts : List Str) :
    estimateTokens (joinSep "\n\n".data texts) ≤
      (texts.map estimateTokens).sum + texts.length / 2 := by
  have h1 := joinSep_length "\n\n".data texts
  have h2 := length_sum_le_four_estimate texts
  have hsep : ("\n\n".data : Str).length = 2 := by decide
  rw [hsep] at h1
  show ((joinSep "\n\n".data texts).length + 3) / 4 ≤
    (texts.map estimateTokens).sum + texts.length / 2
  rw [h1]
  omega

theorem finalizeBlock_slack (hashText : Str → Str) (maxTokens : Nat) (ms : List Msg)
    (h : (ms.map (fun m => estimateTokens (extractMessageText m))).sum ≤ maxTokens) :
    (finalizeBlock hashText ms).tokens ≤
      maxTokens + (finalizeBlock hashText ms).messages.length / 2 := by
  show estimateTokens (joinSep "\n\n".data (ms.map extractMessageText)) ≤
    maxTokens + ms.length / 2
  have := estimate_joinSep_le (ms.map extractMessageText)
  rw [List.map_map, List.length_map] at this
  simp only [Function.comp_def] at this
  exact le_trans this (by omega)

theorem splitTurnF_slack (hashText : Str → Str) (maxTokens maxChars : Nat) :
    ∀ (msgs blockMsgs : List Msg) (bt : Nat),
      bt = (blockMsgs.map (fun m => estimateTokens (extractMessageText m))).sum →
      bt ≤ maxTokens →
      ∀ b ∈ splitTurnF hashText maxTokens maxChars blockMsgs bt msgs,
        b.tokens ≤ maxTokens + b.messages.length / 2 ∨
        isHardFragment maxTokens b = true := by
  intro msgs
  induction msgs with
  | nil =>
    intro blockMsgs bt hsum hle b hb
    by_cases he : blockMsgs.isEmpty
    · simp [splitTurnF, he] at hb
    · simp only [splitTurnF, if_neg he, List.mem_singleton] at hb
      subst hb
      exact Or.inl (finalizeBlock_slack hashText maxTokens blockMsgs (hsum ▸ hle))
  | cons m rest ih =>
    intro blockMsgs bt hsum hle b hb
    by_cases hbig : maxTokens < estimateTokens (extractMessageText m)
    · simp only [splitTurnF, if_pos hbig, List.mem_append] at hb
      rcases hb with (hb | hb) | hb
      · by_cases he : blockMsgs.isEmpty
        · simp [he] at hb
        · simp only [if_neg he, List.mem_singleton] at hb
          subst hb
          exact Or.inl (finalizeBlock_slack hashText maxTokens blockMsgs (hsum ▸ hle))
      · rcases List.mem_map.mp hb with ⟨chunk, _, hc⟩
        subst hc
        right
        simp [isHardFragment, hbig]
      · exact ih [] 0 rfl (Nat.zero_le _) b hb
    · by_cases hsplit : maxTokens < bt + estimateTokens (extractMessageText m) ∧
          ¬blockMsgs.isEmpty
      · have hcond : (decide (maxTokens < bt + estimateTokens (extractMessageText m)) &&
            !blockMsgs.isEmpty) = true := by
          simp [hsplit.1, hsplit.2]
        simp only [splitTurnF, if_neg hbig, if_pos hcond, List.mem_cons] at hb
        rcases hb with hb | hb
        · subst hb
          exact Or.inl (finalizeBlock_slack hashText maxTokens blockMsgs (hsum ▸ hle))
        · exact ih [m] (estimateTokens (extractMessageText m)) (by simp)
            (le_of_not_lt hbig) b hb
      · have hcond : ¬ ((decide (maxTokens < bt + estimateTokens (extractMessageText m)) &&
            !blockMsgs.isEmpty) = true) := by
          intro hc
          simp only [Bool.and_eq_true, decide_eq_true_eq, Bool.not_eq_true'] at hc
          exact hsplit ⟨hc.1, by simp [hc.2]⟩
        simp only [splitTurnF, if_neg hbig, if_neg hcond] at hb
        refine ih (blockMsgs ++ [m]) (bt + estimateTokens (extractMessageText m))
          (by simp [hsum]) ?_ b hb
        by_cases he : blockMsgs.isEmpty
        · have : bt = 0 := by
            rw [hsum, List.isEmpty_iff.mp he]; simp
          omega
        · have : ¬ maxTokens < bt + estimateTokens (extractMessageText m) := fun hc =>
            hsplit ⟨hc, he⟩
          omega

theorem blockifyTurnF_slack (hashText : Str → Str) (maxTokens maxChars : Nat)
    (turnMsgs : List Msg) :
    ∀ b ∈ blockifyTurnF hashText maxTokens maxChars turnMsgs,
      b.tokens ≤ maxTokens + b.messages.length / 2 ∨
      isHardFragment maxTokens b = true := by
  intro b hb
  unfold blockifyTurnF at hb
  by_cases hfit : estimateTokens (joinSep "\n\n".data (turnMsgs.map extractMessageText)) ≤
      maxTokens
  · simp only [if_pos hfit, List.mem_singleton] at hb
    subst hb
    left
    show estimateTokens (joinSep "\n\n".data (turnMsgs.map extractMessageText)) ≤
      maxTokens + turnMsgs.length / 2
    omega
  · simp only [if_neg hfit] at hb
    exact splitTurnF_slack hashText maxTokens maxChars turnMsgs [] 0 rfl
      (Nat.zero_le _) b hb

/-- C5 as stated is false: with `blockSize = 4`, three 8-character assistant
messages (2 tokens each) form one turn; the message-boundary split packs two
of them (accumulated estimate 4 ≤ 4), but the finalized block re-estimates
the joined text including the `"\n\n"` separator and reaches 5 tokens — above
the ceiling without being a hard-split fragment. -/
theorem block_ceiling_counterexample :
    ¬ (∀ b ∈ groupMessagesIntoBlocks (fun s => s)
        { DEFAULT_CONFIG with blockSize := 4 }
        [.assistant (.arr [.text "ab".data]),
         .assistant (.arr [.text "ab".data]),
         .assistant (.arr [.text "ab".data])],
        b.tokens ≤ maxTokensOf { DEFAULT_CONFIG with blockSize := 4 } ∨
        isHardFragment (maxTokensOf { DEFAULT_CONFIG with blockSize := 4 }) b = true) := by
  decide

/-- C5, amended: every block produced by the flat segmenter has a token
estimate at most `blockSize` plus `⌊m/2⌋` separator-overhead tokens, where
`m` is the block's message count (the `"\n\n"` joiners between messages are
not counted while accumulating), except hard-split fragments of a single
message whose own estimate exceeded `blockSize`. -/
theorem block_ceiling_with_separator_slack (hashText : Str → Str) (cfg : Config)
    (msgs : List Msg) :
    ∀ b ∈ groupMessagesIntoBlocks hashText cfg msgs,
      b.tokens ≤ maxTokensOf cfg + b.messages.length / 2 ∨
      isHardFragment (maxTokensOf cfg) b = true := by
  intro b hb
  unfold groupMessagesIntoBlocks at hb
  rcases List.mem_flatMap.mp hb with ⟨turn, _, hbt⟩
  exact blockifyTurnF_slack hashText (maxTokensOf cfg) (maxTokensOf cfg * 4) turn b hbt

/-- Witness for C5's amended bound at the counterexample input: the oversized
two-message block satisfies the separator-slack bound `5 ≤ 4 + 2/2`. -/
theorem block_ceiling_with_separator_slack_witness :
    (finalizeBlock (fun s => s)
      [.assistant (.arr [.text "ab".data]), .assistant (.arr [.text "ab".data])]).tokens ≤
      maxTokensOf { DEFAULT_CONFIG with blockSize := 4 } +
        (finalizeBlock (fun s => s)
          [.assistant (.arr [.text "ab".data]),
           .assistant (.arr [.text "ab".data])]).messages.length / 2 ∨
    isHardFragment (maxTokensOf { DEFAULT_CONFIG with blockSize := 4 })
      (finalizeBlock (fun s => s)
        [.assistant (.arr [.text "ab".data]), .assistant (.arr [.text "ab".data])]) = true :=
  block_ceiling_with_separator_slack (fun s => s) { DEFAULT_CONFIG with blockSize := 4 }
    [.assistant (.arr [.text "ab".data]),
     .assistant (.arr [.text "ab".data]),
     .assistant (.arr [.text "ab".data])]
    (finalizeBlock (fun s => s)
      [.assistant (.arr [.text "ab".data]), .assistant (.arr [.text "ab".data])])
    (by decide)

/-! ## Swap controller invariants (C3, C6) -/

theorem swapPhase_saved (hashText hash8 : Str → Str) (dateStr isoFull iso16 : Nat → Str)
    (sessionId : Str) (cfg : Config) (avail apiKeyOk : Bool)
    (service : Str → Option Str) (signal : Nat → Bool)
    (entries : List BranchEntry) (tokensBefore now : Nat) (prevIdx : Option Nat)
    (blocks : List EBlock) (k1 : Nat) (st : RMState)
    (h : (swapPhase hashText hash8 dateStr isoFull iso16 sessionId cfg avail apiKeyOk
      service signal entries tokensBefore now prevIdx blocks k1 st).1.isCompaction = false) :
    (swapPhase hashText hash8 dateStr isoFull iso16 sessionId cfg avail apiKeyOk
      service signal entries tokensBefore now prevIdx blocks k1 st).2.savedHistory =
        st.savedHistory ∧
    (swapPhase hashText hash8 dateStr isoFull iso16 sessionId cfg avail apiKeyOk
      service signal entries tokensBefore now prevIdx blocks k1 st).2.savedCache =
        st.savedCache := by
  simp only [swapPhase] at h ⊢
  split_ifs at h ⊢ <;>
    first
      | exact ⟨rfl, rfl⟩
      | exact absurd h (by simp [CompactResult.isCompaction])

/-- C6: whenever the handler returns the abort marker (JS `undefined`, in
particular at every cancellation-signal check), no new compaction-history
entry and no cache write is committed: the durable history file and the
durable cache file are exactly what they were before the call
(`saveCompactionHistory`/`saveMessageCache` only run on the success path). -/
theorem abort_commits_nothing (hashText hash8 : Str → Str)
    (dateStr isoFull iso16 : Nat → Str) (sessionId : Str) (cfg : Config)
    (avail apiKeyOk : Bool) (service : Str → Option Str) (signal : Nat → Bool)
    (entries : List BranchEntry) (tokensBefore now : Nat) (st : RMState)
    (h : (handleBeforeCompact hashText hash8 dateStr isoFull iso16 sessionId cfg avail
      apiKeyOk service signal entries tokensBefore now st).1 = .noResult) :
    (handleBeforeCompact hashText hash8 dateStr isoFull iso16 sessionId cfg avail
      apiKeyOk service signal entries tokensBefore now st).2.savedHistory =
        st.savedHistory ∧
    (handleBeforeCompact hashText hash8 dateStr isoFull iso16 sessionId cfg avail
      apiKeyOk service signal entries tokensBefore now st).2.savedCache =
        st.savedCache := by
  simp only [handleBeforeCompact] at h ⊢
  split_ifs at h ⊢ <;>
    first
      | exact ⟨rfl, rfl⟩
      | exact absurd h (by simp)
      | exact swapPhase_saved hashText hash8 dateStr isoFull iso16 sessionId cfg
          avail apiKeyOk service signal entries tokensBefore now
          (findLastCompactionIndex entries) (filteredBlocks hashText cfg entries)
          (plannedSwapCount hashText cfg st entries tokensBefore)
          { st with deferredMin := 0 }
          (by rw [h]; rfl)

def cfgW6 : Config :=
  { enabled := true, compressTrigger := 1, evictTrigger := 1000, blockSize := 4000,
    minCompressChars := 200, minSwapTokens := 1, maxParallelCompressions := 4 }

def entW6 (id : String) : BranchEntry :=
  { type := "message", id := some id.data,
    message := some (.user (.str "hello".data)), summary := [],
    data := Option.none, content := [] }

def stW6 : RMState :=
  { compactionHistory := [], messageCache := [("k".data, ⟨"v".data, 2, 1⟩)],
    compressionQueue := [], deferredMin := 0,
    savedHistory := [⟨"old".data, 3, 2, 5⟩],
    savedCache := [("k".data, ⟨"v".data, 2, 1⟩)], rawArchive := [], memArchive := [] }

/-- Witness for C6: a two-turn window whose cancellation signal is already
aborted at the first check; the handler returns the abort marker and the
durable history and cache are untouched. -/
theorem abort_commits_nothing_witness :
    (handleBeforeCompact (fun s => s) (fun s => s) (fun _ => []) (fun _ => [])
      (fun _ => []) "sess".data cfgW6 true true (fun _ => Option.none)
      (fun _ => true) [entW6 "e1", entW6 "e2"] 2 100 stW6).2.savedHistory =
        stW6.savedHistory ∧
    (handleBeforeCompact (fun s => s) (fun s => s) (fun _ => []) (fun _ => [])
      (fun _ => []) "sess".data cfgW6 true true (fun _ => Option.none)
      (fun _ => true) [entW6 "e1", entW6 "e2"] 2 100 stW6).2.savedCache =
        stW6.savedCache :=
  abort_commits_nothing (fun s => s) (fun s => s) (fun _ => []) (fun _ => [])
    (fun _ => []) "sess".data cfgW6 true true (fun _ => Option.none)
    (fun _ => true) [entW6 "e1", entW6 "e2"] 2 100 stW6 (by decide)

/-- C3: a successful swap always keeps at least one block of the segmented
window raw (the planned swap count stays strictly below the filtered block
count, so `toKeepRaw` is non-empty); and when the keep-one-raw clamp forces
the swap count to zero, the handler records the deferred minimum block count
(`deferredCompactionMinBlocks = 2`) and returns the cancellation marker. -/
theorem keep_one_raw_or_defer (hashText hash8 : Str → Str)
    (dateStr isoFull iso16 : Nat → Str) (sessionId : Str) (cfg : Config)
    (avail apiKeyOk : Bool) (service : Str → Option Str) (signal : Nat → Bool)
    (entries : List BranchEntry) (tokensBefore now : Nat) (st : RMState) :
    ((handleBeforeCompact hashText hash8 dateStr isoFull iso16 sessionId cfg avail
        apiKeyOk service signal entries tokensBefore now st).1.isCompaction = true →
      1 ≤ plannedSwapCount hashText cfg st entries tokensBefore ∧
      plannedSwapCount hashText cfg st entries tokensBefore <
        (filteredBlocks hashText cfg entries).length) ∧
    (cfg.enabled = true → ¬entries.isEmpty = true → avail = true →
      ¬(filteredBlocks hashText cfg entries).isEmpty = true →
      ¬(0 < st.deferredMin ∧
          (filteredBlocks hashText cfg entries).length < st.deferredMin) →
      ¬((tokensBefore : Int) - (cfg.compressTrigger : Int) ≤ 0) →
      plannedSwapCount hashText cfg st entries tokensBefore = 0 →
      handleBeforeCompact hashText hash8 dateStr isoFull iso16 sessionId cfg avail
        apiKeyOk service signal entries tokensBefore now st =
        (.cancel, { st with deferredMin := 2 })) := by
  constructor
  · intro h
    simp only [handleBeforeCompact] at h
    split_ifs at h with h1 h2 h3 h4 h5 h6 h7
    · exact absurd h (by simp [CompactResult.isCompaction])
    · exact absurd h (by simp [CompactResult.isCompaction])
    · exact absurd h (by simp [CompactResult.isCompaction])
    · exact absurd h (by simp [CompactResult.isCompaction])
    · exact absurd h (by simp [CompactResult.isCompaction])
    · exact absurd h (by simp [CompactResult.isCompaction])
    · exact absurd h (by simp [CompactResult.isCompaction])
    · have hlen : 0 < (filteredBlocks hashText cfg entries).length := by
        cases hbl : filteredBlocks hashText cfg entries with
        | nil => rw [hbl] at h4; simp at h4
        | cons a l => simp [hbl]
      refine ⟨by omega, ?_⟩
      simp only [plannedSwapCount] at h7 ⊢
      split_ifs at h7 ⊢ with hc
      · omega
      · omega
  · intro hen hne hav hbl hskip hov hk
    simp only [handleBeforeCompact]
    rw [if_neg (by simp [hen]), if_neg hne, if_neg (by simp [hav]), if_neg hbl,
      if_neg (by simp only [Bool.and_eq_true, decide_eq_true_eq]; exact hskip),
      if_neg hov, if_pos hk]

def cfgW3 : Config :=
  { enabled := true, compressTrigger := 1, evictTrigger := 1000, blockSize := 4000,
    minCompressChars := 200, minSwapTokens := 1, maxParallelCompressions := 4 }

def entW3 (id : String) : BranchEntry :=
  { type := "message", id := some id.data,
    message := some (.user (.str "hello".data)), summary := [],
    data := Option.none, content := [] }

def stW3 : RMState :=
  { compactionHistory := [], messageCache := [], compressionQueue := [],
    deferredMin := 0, savedHistory := [], savedCache := [],
    rawArchive := [], memArchive := [] }

/-- Witness for C3: a two-turn window that swaps successfully keeps one block
raw (`plannedSwapCount = 1 < 2`), and a one-block window defers with
`deferredMin = 2` and a cancellation. -/
theorem keep_one_raw_or_defer_witness :
    (1 ≤ plannedSwapCount (fun s => s) cfgW3 stW3 [entW3 "e1", entW3 "e2"] 2 ∧
     plannedSwapCount (fun s => s) cfgW3 stW3 [entW3 "e1", entW3 "e2"] 2 <
       (filteredBlocks (fun s => s) cfgW3 [entW3 "e1", entW3 "e2"]).length) ∧
    handleBeforeCompact (fun s => s) (fun s => s) (fun _ => []) (fun _ => [])
      (fun _ => []) "sess".data cfgW3 true true (fun _ => Option.none)
      (fun _ => false) [entW3 "e1"] 2 100 stW3 =
      (.cancel, { stW3 with deferredMin := 2 }) :=
  ⟨(keep_one_raw_or_defer (fun s => s) (fun s => s) (fun _ => []) (fun _ => [])
      (fun _ => []) "sess".data cfgW3 true true (fun _ => Option.none)
      (fun _ => false) [entW3 "e1", entW3 "e2"] 2 100 stW3).1 (by decide),
   (keep_one_raw_or_defer (fun s => s) (fun s => s) (fun _ => []) (fun _ => [])
      (fun _ => []) "sess".data cfgW3 true true (fun _ => Option.none)
      (fun _ => false) [entW3 "e1"] 2 100 stW3).2 (by decide) (by decide) (by decide)
      (by decide) (by decide) (by decide) (by decide)⟩

/-! ## Path agreement of the two segmentation entry points (C1) -/

/-- The messages that survive the segmenters' summary filter
(`compactionSummary`/`branchSummary` records are dropped before turn
partitioning). -/
def dropSummaries (msgs : List Msg) : List Msg :=
  msgs.filter (fun m => !m.isSummaryRole)

/-- The message sequence the indexed entry point actually segments: the
window from `startIndex`, extracted through `getMessageFromEntry`, with
null extractions and summary roles dropped. -/
def extractedEntryMessages (entries : List BranchEntry) (startIndex : Nat) : List Msg :=
  dropSummaries ((entries.drop startIndex).filterMap getMessageFromEntry)

/-- The surviving `{index, id, message}` records of the indexed turn loop. -/
def cleanRecs (pairs : List (Nat × BranchEntry)) : List EntryRec :=
  pairs.filterMap (fun p => match getMessageFromEntry p.2 with
    | none => none
    | some m => if m.isSummaryRole then none else some ⟨p.1, p.2.id, m⟩)

theorem groupTurnsF_dropSummaries :
    ∀ (msgs : List Msg) (acc : List Msg),
      groupTurnsF acc msgs = groupTurnsF acc (dropSummaries msgs) := by
  intro msgs
  induction msgs with
  | nil => intro acc; rfl
  | cons m rest ih =>
    intro acc
    by_cases hs : m.isSummaryRole
    · rw [show groupTurnsF acc (m :: rest) = groupTurnsF acc rest from by
        simp [groupTurnsF, hs]]
      rw [show dropSummaries (m :: rest) = dropSummaries rest from by
        simp [dropSummaries, List.filter_cons, hs]]
      exact ih acc
    · rw [show dropSummaries (m :: rest) = m :: dropSummaries rest from by
        simp [dropSummaries, List.filter_cons, hs]]
      by_cases hu : (m.isUserRole && !acc.isEmpty) = true
      · rw [show groupTurnsF acc (m :: rest) =
            acc :: groupTurnsF [m] rest from by simp [groupTurnsF, hs, hu]]
        rw [show groupTurnsF acc (m :: dropSummaries rest) =
            acc :: groupTurnsF [m] (dropSummaries rest) from by
          simp [groupTurnsF, hs, hu]]
        rw [ih [m]]
      · rw [show groupTurnsF acc (m :: rest) =
            groupTurnsF (acc ++ [m]) rest from by simp [groupTurnsF, hs, hu]]
        rw [show groupTurnsF acc (m :: dropSummaries rest) =
            groupTurnsF (acc ++ [m]) (dropSummaries rest) from by
          simp [groupTurnsF, hs, hu]]
        exact ih (acc ++ [m])

theorem isEmpty_map {α β : Type} (f : α → β) (l : List α) :
    (l.map f).isEmpty = l.isEmpty := by
  cases l <;> simp

theorem groupTurnsF_cons (acc : List Msg) (m : Msg) (rest : List Msg) :
    groupTurnsF acc (m :: rest) =
      if m.isSummaryRole then groupTurnsF acc rest
      else if m.isUserRole && !acc.isEmpty then acc :: groupTurnsF [m] rest
      else groupTurnsF (acc ++ [m]) rest := rfl

theorem groupTurnsE_cons (acc : List EntryRec) (i : Nat) (e : BranchEntry)
    (rest : List (Nat × BranchEntry)) :
    groupTurnsE acc ((i, e) :: rest) =
      match getMessageFromEntry e with
      | none => groupTurnsE acc rest
      | some m =>
        if m.isSummaryRole then groupTurnsE acc rest
        else if m.isUserRole && !acc.isEmpty then
          acc :: groupTurnsE [⟨i, e.id, m⟩] rest
        else groupTurnsE (acc ++ [⟨i, e.id, m⟩]) rest := rfl

theorem groupTurnsE_corr :
    ∀ (pairs : List (Nat × BranchEntry)) (accE : List EntryRec),
      (groupTurnsE accE pairs).map (List.map (fun r => r.message)) =
        groupTurnsF (accE.map (fun r => r.message))
          ((cleanRecs pairs).map (fun r => r.message)) := by
  intro pairs
  induction pairs with
  | nil =>
    intro accE
    by_cases he : accE.isEmpty
    · simp [groupTurnsE, groupTurnsF, cleanRecs, he, isEmpty_map]
    · simp [groupTurnsE, groupTurnsF, cleanRecs, he, isEmpty_map]
  | cons p rest ih =>
    intro accE
    obtain ⟨i, e⟩ := p
    rw [groupTurnsE_cons]
    cases hge : getMessageFromEntry e with
    | none =>
      dsimp only
      rw [show cleanRecs ((i, e) :: rest) = cleanRecs rest from by
        simp [cleanRecs, List.filterMap_cons, hge]]
      exact ih accE
    | some m =>
      dsimp only
      by_cases hs : m.isSummaryRole = true
      · rw [if_pos hs]
        rw [show cleanRecs ((i, e) :: rest) = cleanRecs rest from by
          simp [cleanRecs, List.filterMap_cons, hge, hs]]
        exact ih accE
      · rw [if_neg hs]
        rw [show cleanRecs ((i, e) :: rest) =
            (⟨i, e.id, m⟩ : EntryRec) :: cleanRecs rest from by
          simp [cleanRecs, List.filterMap_cons, hge, hs]]
        simp only [List.map_cons]
        rw [groupTurnsF_cons, if_neg hs, isEmpty_map]
        by_cases hu : (m.isUserRole && !accE.isEmpty) = true
        · rw [if_pos hu, if_pos hu]
          simp only [List.map_cons]
          rw [ih [EntryRec.mk i e.id m]]
          rfl
        · rw [if_neg hu, if_neg hu]
          rw [ih (accE ++ [EntryRec.mk i e.id m])]
          simp

theorem cleanRecs_map_message :
    ∀ (l : List BranchEntry) (n : Nat),
      (cleanRecs (List.enumFrom n l)).map (fun r => r.message) =
        dropSummaries (l.filterMap getMessageFromEntry) := by
  intro l
  induction l with
  | nil => intro n; rfl
  | cons e rest ih =>
    intro n
    simp only [List.enumFrom]
    cases hge : getMessageFromEntry e with
    | none =>
      simp only [cleanRecs, List.filterMap_cons, hge] at ih ⊢
      exact ih (n + 1)
    | some m =>
      by_cases hs : m.isSummaryRole = true
      · simp only [cleanRecs, dropSummaries, List.filterMap_cons, hge, hs,
          List.filter_cons] at ih ⊢
        simpa using ih (n + 1)
      · simp only [cleanRecs, dropSummaries, List.filterMap_cons, hge,
          List.filter_cons] at ih ⊢
        rw [if_neg (by simp [hs]), if_pos (by simp [hs])]
        simpa using ih (n + 1)

theorem finalize_th (hashText : Str → Str) (accE : List EntryRec) :
    ((finalizeEntryBlock hashText accE).text, (finalizeEntryBlock hashText accE).hash) =
      ((finalizeBlock hashText (accE.map (fun r => r.message))).text,
       (finalizeBlock hashText (accE.map (fun r => r.message))).hash) := by
  simp [finalizeEntryBlock, finalizeBlock, List.map_map, Function.comp_def]

theorem splitTurn_corr (hashText : Str → Str) (maxTokens maxChars : Nat) :
    ∀ (es accE : List EntryRec) (bt : Nat),
      (splitTurnE hashText maxTokens maxChars accE bt es).map (fun b => (b.text, b.hash)) =
      (splitTurnF hashText maxTokens maxChars (accE.map (fun r => r.message)) bt
        (es.map (fun r => r.message))).map (fun b => (b.text, b.hash)) := by
  intro es
  induction es with
  | nil =>
    intro accE bt
    by_cases he : accE.isEmpty
    · simp [splitTurnE, splitTurnF, he, isEmpty_map]
    · simp only [List.map_nil, splitTurnE, splitTurnF, isEmpty_map, if_neg he,
        List.map_singleton]
      rw [finalize_th hashText accE]
  | cons e rest ih =>
    intro accE bt
    simp only [List.map_cons, splitTurnE, splitTurnF]
    by_cases hbig : maxTokens < estimateTokens (extractMessageText e.message)
    · rw [if_pos hbig, if_pos hbig]
      simp only [List.map_append]
      have h1 : ((if accE.isEmpty then ([] : List EBlock)
            else [finalizeEntryBlock hashText accE]).map (fun b => (b.text, b.hash))) =
          ((if (accE.map (fun r => r.message)).isEmpty then ([] : List Block)
            else [finalizeBlock hashText (accE.map (fun r => r.message))]).map
              (fun b => (b.text, b.hash))) := by
        by_cases he : accE.isEmpty
        · simp [he, isEmpty_map]
        · simp only [isEmpty_map, if_neg he, List.map_singleton]
          rw [finalize_th hashText accE]
      have h2 : (((hardSplitText (extractMessageText e.message) maxChars).map
            (fun chunk => EBlock.mk [e] e.id e.index chunk (hashText chunk)
              (estimateTokens chunk))).map (fun b => (b.text, b.hash))) =
          (((hardSplitText (extractMessageText e.message) maxChars).map
            (fun chunk => Block.mk [e.message] chunk (hashText chunk)
              (estimateTokens chunk))).map (fun b => (b.text, b.hash))) := by
        simp [List.map_map, Function.comp_def]
      rw [h1, h2]
      have h3 := ih [] 0
      simp only [List.map_nil] at h3
      rw [h3]
    · rw [if_neg hbig, if_neg hbig, isEmpty_map]
      by_cases hcond : (decide (maxTokens < bt + estimateTokens (extractMessageText e.message))
          && !accE.isEmpty) = true
      · rw [if_pos hcond, if_pos hcond]
        simp only [List.map_cons]
        have h3 := ih [e] (estimateTokens (extractMessageText e.message))
        simp only [List.map_singleton] at h3
        rw [finalize_th hashText accE, h3]
      · rw [if_neg hcond, if_neg hcond]
        have h3 := ih (accE ++ [e]) (bt + estimateTokens (extractMessageText e.message))
        rw [show (accE ++ [e]).map (fun r => r.message) =
            accE.map (fun r => r.message) ++ [e.message] from by simp] at h3
        exact h3

theorem map_flatMap_helper {α β γ : Type} (g : β → γ) (f : α → List β) (l : List α) :
    (l.flatMap f).map g = l.flatMap (fun a => (f a).map g) := by
  induction l with
  | nil => rfl
  | cons a t ih => simp [List.flatMap_cons, ih]

theorem flatMap_map_helper {α β γ : Type} (f : α → β) (g : β → List γ) (l : List α) :
    (l.map f).flatMap g = l.flatMap (fun a => g (f a)) := by
  induction l with
  | nil => rfl
  | cons a t ih => simp [List.flatMap_cons, ih]

theorem blockify_corr (hashText : Str → Str) (maxTokens maxChars : Nat)
    (turnE : List EntryRec) :
    (blockifyTurnE hashText maxTokens maxChars turnE).map (fun b => (b.text, b.hash)) =
    (blockifyTurnF hashText maxTokens maxChars (turnE.map (fun r => r.message))).map
      (fun b => (b.text, b.hash)) := by
  simp only [blockifyTurnE, blockifyTurnF, List.map_map, Function.comp_def]
  by_cases hfit : estimateTokens (joinSep "\n\n".data
      (turnE.map (fun e => extractMessageText e.message))) ≤ maxTokens
  · rw [if_pos hfit, if_pos hfit]
    simp only [List.map_singleton]
    simp [finalizeEntryBlock, finalizeBlock, List.map_map, Function.comp_def]
  · rw [if_neg hfit, if_neg hfit]
    have := splitTurn_corr hashText maxTokens maxChars turnE [] 0
    simpa [List.map_map, Function.comp_def] using this

/-- C1: segmenting a message sequence through the flat-list entry point and
through the indexed entry point (over entries whose extracted messages,
after dropping `compactionSummary`/`branchSummary` roles, are that same
sequence) yields position by position blocks with identical text and
identical content hashes. -/
theorem segmentation_paths_agree (hashText : Str → Str) (cfg : Config)
    (msgs : List Msg) (entries : List BranchEntry) (startIndex : Nat)
    (h : dropSummaries msgs = extractedEntryMessages entries startIndex) :
    (groupMessagesIntoBlocks hashText cfg msgs).map (fun b => (b.text, b.hash)) =
    (groupEntriesIntoBlocks hashText cfg entries startIndex).map
      (fun b => (b.text, b.hash)) := by
  simp only [groupMessagesIntoBlocks, groupEntriesIntoBlocks]
  rw [map_flatMap_helper, map_flatMap_helper]
  have hturns : (groupTurnsE [] (List.enumFrom startIndex (entries.drop startIndex))).map
      (List.map (fun r => r.message)) = groupTurnsF [] msgs := by
    rw [groupTurnsE_corr]
    simp only [List.map_nil]
    rw [cleanRecs_map_message]
    have h' : dropSummaries ((entries.drop startIndex).filterMap getMessageFromEntry) =
        dropSummaries msgs := h.symm
    rw [h']
    exact (groupTurnsF_dropSummaries msgs []).symm
  have hcong : (groupTurnsE [] (List.enumFrom startIndex (entries.drop startIndex))).flatMap
      (fun t => (blockifyTurnE hashText (maxTokensOf cfg) (maxTokensOf cfg * 4) t).map
        (fun b => (b.text, b.hash))) =
      (groupTurnsE [] (List.enumFrom startIndex (entries.drop startIndex))).flatMap
      (fun t => (blockifyTurnF hashText (maxTokensOf cfg) (maxTokensOf cfg * 4)
        (t.map (fun r => r.message))).map (fun b => (b.text, b.hash))) :=
    congrArg _ (funext fun t =>
      blockify_corr hashText (maxTokensOf cfg) (maxTokensOf cfg * 4) t)
  rw [hcong, ← hturns, flatMap_map_helper]

def msgsW1 : List Msg :=
  [.compactionSummary "oldsum".data,
   .user (.str "hi".data),
   .assistant (.arr [.text "ok".data]),
   .user (.str "yo".data)]

def entriesW1 : List BranchEntry :=
  [{ type := "compaction", id := some "c0".data, message := Option.none,
     summary := "oldsum".data, data := Option.none, content := [] },
   { type := "message", id := some "e1".data,
     message := some (.user (.str "hi".data)), summary := [],
     data := Option.none, content := [] },
   { type := "message", id := some "e2".data,
     message := some (.assistant (.arr [.text "ok".data])), summary := [],
     data := Option.none, content := [] },
   { type := "message", id := some "e3".data,
     message := some (.user (.str "yo".data)), summary := [],
     data := Option.none, content := [] }]

/-- Witness for C1: a window with a prior-compaction record and two user
turns; the flat and indexed segmentations produce the same text/hash pairs. -/
theorem segmentation_paths_agree_witness :
    (groupMessagesIntoBlocks (fun s => s) DEFAULT_CONFIG msgsW1).map
      (fun b => (b.text, b.hash)) =
    (groupEntriesIntoBlocks (fun s => s) DEFAULT_CONFIG entriesW1 0).map
      (fun b => (b.text, b.hash)) :=
  segmentation_paths_agree (fun s => s) DEFAULT_CONFIG msgsW1 entriesW1 0 (by decide)
